import Mathlib

/-!
Verification of the PDF→TXT converter (`app.py`).

The PDF content model itself lives in the external pdfplumber library, so a
document is embedded abstractly through the behaviour the code observes from
the library: the `is_encrypted` flag, the `decrypt` oracle, and the per-page
`extract_text` results.  Everything the repository itself computes — the
encryption branching, the page loop with its separators and warnings, the
final strip, the caller-side separator removal, the filename derivation and
the batch zip — is translated directly from the source.
-/

/-- ASCII whitespace, as stripped by Python's `str.strip()` and matched by the
`\s` class of the removal regex in `app.py` (the Unicode-only whitespace
characters are outside the scope of this development). -/
def isPySpace (c : Char) : Bool :=
  c == ' ' || c == '\t' || c == '\n' || c == '\r' || c == '\x0b' || c == '\x0c'

/-- `true` when the list is nonempty and its first character is not whitespace. -/
def headNonWs (l : List Char) : Bool :=
  match l with
  | [] => false
  | c :: _ => !isPySpace c

/-- Python's `str.strip()` on a character list: drop whitespace from both ends. -/
def pyStripL (l : List Char) : List Char :=
  ((l.dropWhile isPySpace).reverse.dropWhile isPySpace).reverse

/-- Python's `str.strip()` (`app.py` lines 77 and 150). -/
def pyStrip (s : String) : String := String.mk (pyStripL s.data)

/-- Abstract view of one parsed PDF as exposed by pdfplumber: whether it
reports itself encrypted, which passwords its `decrypt` accepts, and the
`extract_text(x_tolerance=1.5, y_tolerance=1.0)` result of each page in
order (`none` models a page with no extractable text). -/
structure PdfDocument where
  is_encrypted : Bool
  decrypt : String → Bool
  pages : List (Option String)

/-- A byte buffer handed to `pdfplumber.open`: parsing either fails or yields
a document. -/
inductive PdfBytes where
  | corrupt
  | valid (doc : PdfDocument)

/-- The failure conditions of `extract_text_from_pdf`: the two `ValueError`s
raised on the encryption path (the spec's `AccessDenied`) and the propagated
parse failure (the spec's `CorruptDocument`). -/
inductive ExtractError where
  | accessDenied (msg : String)
  | corruptDocument
deriving DecidableEq

instance {ε α : Type} [DecidableEq ε] [DecidableEq α] : DecidableEq (Except ε α) := fun a b =>
  match a, b with
  | .ok x, .ok y =>
    if h : x = y then .isTrue (by rw [h]) else .isFalse (fun hh => h (Except.ok.inj hh))
  | .error x, .error y =>
    if h : x = y then .isTrue (by rw [h]) else .isFalse (fun hh => h (Except.error.inj hh))
  | .ok _, .error _ => .isFalse (fun hh => Except.noConfusion hh)
  | .error _, .ok _ => .isFalse (fun hh => Except.noConfusion hh)

/-- The warning appended for a page with no extractable text (line 69). -/
def pageWarning (i : Nat) : String :=
  "Página " ++ toString i ++ ": no se pudo extraer texto (puede ser escaneada/imagen)."

/-- The warning appended when the final text is empty (line 79). -/
def noTextWarning : String :=
  "No se extrajo texto. El PDF podría ser escaneado/imagen sin OCR."

/-- Line 74: the per-page header, inserted only when the document has more
than one page. -/
def pageHeader (numPages i : Nat) : String :=
  if numPages > 1 then "\n\n--- Página " ++ toString i ++ " ---\n\n" else ""

/-- The page loop of `extract_text_from_pdf` (lines 64–75), starting at page
number `i`: returns the accumulated `text_chunks` and `warnings`. -/
def processPages (numPages : Nat) : Nat → List (Option String) → List String × List String
  | _, [] => ([], [])
  | i, none :: ps =>
    let r := processPages numPages (i + 1) ps
    (r.1, pageWarning i :: r.2)
  | i, some t :: ps =>
    let r := processPages numPages (i + 1) ps
    ((pageHeader numPages i ++ t) :: r.1, r.2)

/-- Python's `"".join` (line 77). -/
def joinChunks (l : List String) : String :=
  String.mk (l.foldr (fun s acc => s.data ++ acc) [])

/-- Lines 61–81 of `extract_text_from_pdf`, after the encryption check:
the page loop, the joined and stripped text, and the empty-text warning. -/
def runPages (pdf : PdfDocument) : String × List String :=
  let r := processPages pdf.pages.length 1 pdf.pages
  let full_text := pyStrip (joinChunks r.1)
  if full_text == "" then (full_text, r.2 ++ [noTextWarning]) else (full_text, r.2)

/-- Python truthiness of the optional `password` argument (`if password:`,
line 53): `None` and the empty string are falsy. -/
def passwordTruthy : Option String → Bool
  | none => false
  | some s => !(s == "")

/-- `extract_text_from_pdf` (`app.py` lines 37–85). -/
def extract_text_from_pdf (b : PdfBytes) (password : Option String) :
    Except ExtractError (String × List String) :=
  match b with
  | .corrupt => .error .corruptDocument
  | .valid pdf =>
    if pdf.is_encrypted then
      if passwordTruthy password then
        if pdf.decrypt (password.getD "") then .ok (runPages pdf)
        else .error (.accessDenied "Contraseña incorrecta para el PDF protegido.")
      else .error (.accessDenied "El PDF está protegido. Proporciona una contraseña.")
    else .ok (runPages pdf)

/-- `to_txt_filename` (lines 88–90): `pdf_name.rsplit(".", 1)[0]` followed by
`.txt`. -/
def to_txt_filename (pdf_name : String) : String :=
  let r := pdf_name.data.reverse
  let base :=
    if r.contains '.' then ((r.dropWhile fun c => !(c == '.')).drop 1).reverse
    else pdf_name.data
  String.mk base ++ ".txt"

/-- One attempt to match a literal at the head of the input. -/
def matchLit : List Char → List Char → Option (List Char)
  | [], cs => some cs
  | _ :: _, [] => none
  | l :: ls, c :: cs => if c == l then matchLit ls cs else none

/-- Greedy `\d+`: requires one digit, then consumes the maximal digit run. -/
def matchDigits : List Char → Option (List Char)
  | [] => none
  | c :: cs => if c.isDigit then some (cs.dropWhile Char.isDigit) else none

def markerL1 : List Char := "--- Página ".data

def markerL2 : List Char := " ---".data

/-- The literal part `--- Página \d+ ---` of the removal regex (line 150). -/
def markerCore (cs : List Char) : Option (List Char) :=
  (matchLit markerL1 cs).bind fun cs1 =>
    (matchDigits cs1).bind fun cs2 => matchLit markerL2 cs2

/-- One attempt of the full pattern `\n*\s*--- Página \d+ ---\s*\n*` at the
head of the input.  Python's greedy backtracking degenerates to maximal munch
here: no whitespace character can start the literal, so only the maximal
whitespace runs can be followed by a successful literal match. -/
def matchMarker (cs : List Char) : Option (List Char) :=
  (markerCore (cs.dropWhile isPySpace)).map fun r => r.dropWhile isPySpace

/-- Left-to-right scan marking each leftmost non-overlapping occurrence of the
separator pattern (`none` in the output); the fuel starts at the input length
and every match consumes at least the marker literal. -/
def scanFuel : Nat → List Char → List (Option Char)
  | 0, cs => cs.map some
  | _ + 1, [] => []
  | f + 1, c :: cs =>
    match matchMarker (c :: cs) with
    | some rest => none :: scanFuel f rest
    | none => some c :: scanFuel f cs

def scanMarkers (l : List Char) : List (Option Char) := scanFuel l.length l

/-- `re.sub(pattern, "\n", text)`: every marked occurrence becomes a newline. -/
def renderSub : List (Option Char) → List Char
  | [] => []
  | some c :: ts => c :: renderSub ts
  | none :: ts => '\n' :: renderSub ts

/-- Lines 146–150: the caller-side removal of page separators,
`re.sub(r"\n*\s*--- Página \d+ ---\s*\n*", "\n", text).strip()`. -/
def removeSeparators (s : String) : String :=
  pyStrip (String.mk (renderSub (scanMarkers s.data)))

/-- Splitting a token stream at the marked separator occurrences. -/
def splitTok : List (Option Char) → List (List Char)
  | [] => [[]]
  | none :: ts => [] :: splitTok ts
  | some c :: ts =>
    match splitTok ts with
    | [] => [[c]]
    | s :: ss => (c :: s) :: ss

/-- The pieces a text falls into at separator-header occurrences. -/
def splitMarkers (s : String) : List String :=
  (splitTok (scanMarkers s.data)).map String.mk

/-- The number of nonempty segments the text splits into at separator headers. -/
def countSegments (s : String) : Nat :=
  ((splitMarkers s).filter fun t => !(t == "")).length

/-- One uploaded file of a run: its original name and its raw bytes. -/
structure Upload where
  name : String
  content : PdfBytes

/-- Per-file body of the run loop (lines 139–188): a successful file yields
the `(txt filename, displayed text, warnings)` triple appended to `outputs`;
a failed file is caught and skipped.  `showHeaders` is the
`show_page_headers` toggle consulted on line 146. -/
def processUpload (showHeaders : Bool) (password : Option String) (u : Upload) :
    Option (String × String × List String) :=
  match extract_text_from_pdf u.content password with
  | .error _ => none
  | .ok (text, warns) =>
    let shown := if showHeaders then text else removeSeparators text
    some (to_txt_filename u.name, shown, warns)

/-- The whole run loop: the `outputs` list in batch order. -/
def processRun (showHeaders : Bool) (password : Option String) (ups : List Upload) :
    List (String × String × List String) :=
  ups.filterMap (processUpload showHeaders password)

/-- The text offered by a file's standalone download button (line 164). -/
def standaloneText (showHeaders : Bool) (password : Option String) (u : Upload) :
    Option String :=
  (processUpload showHeaders password u).map fun o => o.2.1

/-- Lines 199–211: when more than one file succeeded, the zip archive holds
one `(entry name, entry content)` pair per output triple, in order. -/
def batchZipEntries (outs : List (String × String × List String)) :
    Option (List (String × String)) :=
  if outs.length > 1 then some (outs.map fun o => (o.1, o.2.1)) else none

/-- Modelled from the spec: the text §4.1 step 4 would produce had page
separators never been inserted — every header empty, so the per-page texts
are appended directly and the concatenation stripped.  (The source has no
such mode; this counterfactual is needed only to compare the caller-side
removal transform against it.) -/
def extractTextNoSeparators (pdf : PdfDocument) : String :=
  pyStrip (joinChunks (pdf.pages.filterMap id))

/-- Texts joined by single newlines. -/
def njoin : List (List Char) → List Char
  | [] => []
  | [t] => t
  | t :: ts => t ++ '\n' :: njoin ts

def joinedByNewlines (ts : List String) : String := String.mk (njoin (ts.map String.data))

/-- No suffix of the list begins with the literal marker pattern, i.e. the
text has no `--- Página <n> ---` substring. -/
def markerFreeL (l : List Char) : Bool := l.tails.all fun s => (markerCore s).isNone

/-- A page text that is nonempty, carries no leading or trailing whitespace
and contains no separator-marker substring. -/
def cleanTextB (t : String) : Bool :=
  headNonWs t.data && headNonWs t.data.reverse && markerFreeL t.data

/-- The running example document: two pages reading `Hello` and `World`. -/
def helloWorldDoc : PdfDocument where
  is_encrypted := false
  decrypt := fun _ => false
  pages := [some "Hello", some "World"]

/-- The text the code actually returns for `helloWorldDoc`. -/
def helloWorldText : String := "--- Página 1 ---\n\nHello\n\n--- Página 2 ---\n\nWorld"

/-- Claim C1 (corrected), counterexample: for the two-page document with page
texts `Hello` and `World`, the extractor does not return the text claimed —
the headers read `--- Página i ---`, not `--- Page i ---`. -/
theorem c1_counterexample :
    extract_text_from_pdf (.valid helloWorldDoc) none ≠
      .ok ("--- Page 1 ---\n\nHello\n\n--- Page 2 ---\n\nWorld", []) := by
  decide

/-- Claim C1 (amended): for every unencrypted document whose two pages yield
`Hello` and `World`, extraction succeeds with no warnings and the exact text
`--- Página 1 ---\n\nHello\n\n--- Página 2 ---\n\nWorld` — each page's text
prefixed by a header bracketed by blank lines, concatenated in page order,
then stripped of surrounding whitespace. -/
theorem c1_two_page_example (pdf : PdfDocument) (pw : Option String)
    (henc : pdf.is_encrypted = false)
    (hpages : pdf.pages = [some "Hello", some "World"]) :
    extract_text_from_pdf (.valid pdf) pw = .ok (helloWorldText, []) := by
  obtain ⟨enc, dec, pages⟩ := pdf
  simp only at henc hpages
  subst henc hpages
  rfl

/-- Claim C1 witness: the amended theorem evaluated on the concrete document. -/
theorem c1_two_page_example_witness :
    extract_text_from_pdf (.valid helloWorldDoc) none = .ok (helloWorldText, []) :=
  c1_two_page_example helloWorldDoc none rfl rfl

/-- Claim C2 (confirmed): on a parseable document, extraction fails with an
`AccessDenied` condition exactly when the document is encrypted and the
password is unusable (absent, empty — Python-falsy, normalised to absent by
the caller — or rejected by `decrypt`).  The error constructor carries only
the message, so no page warning and no text accompany such a failure. -/
theorem c2_access_denied_iff (pdf : PdfDocument) (pw : Option String) :
    (∃ msg, extract_text_from_pdf (.valid pdf) pw = .error (.accessDenied msg)) ↔
      (pdf.is_encrypted = true ∧ (passwordTruthy pw && pdf.decrypt (pw.getD "")) = false) := by
  by_cases henc : pdf.is_encrypted = true
  · by_cases hpw : passwordTruthy pw = true
    · by_cases hd : pdf.decrypt (pw.getD "") = true
      · simp [extract_text_from_pdf, henc, hpw, hd]
      · simp [extract_text_from_pdf, henc, hpw, hd]
    · simp [extract_text_from_pdf, henc, hpw]
  · simp [extract_text_from_pdf, henc]

/-- Claim C8 (confirmed): on an unencrypted document the password is ignored:
any password gives the same result as no password, and the result is always
the success produced by the page loop — extraction never fails on account of
the password. -/
theorem c8_password_noop (pdf : PdfDocument) (pw : Option String)
    (henc : pdf.is_encrypted = false) :
    extract_text_from_pdf (.valid pdf) pw = extract_text_from_pdf (.valid pdf) none ∧
      extract_text_from_pdf (.valid pdf) pw = .ok (runPages pdf) := by
  simp [extract_text_from_pdf, henc]

/-- Claim C8 witness. -/
theorem c8_password_noop_witness :
    extract_text_from_pdf (.valid helloWorldDoc) (some "secret") =
        extract_text_from_pdf (.valid helloWorldDoc) none ∧
      extract_text_from_pdf (.valid helloWorldDoc) (some "secret") =
        .ok (runPages helloWorldDoc) :=
  c8_password_noop helloWorldDoc (some "secret") rfl

/-- Claim C9 (confirmed): extraction is deterministic — two calls on the same
byte buffer with the same password return identical text and warnings. -/
theorem c9_deterministic (b₁ b₂ : PdfBytes) (p₁ p₂ : Option String)
    (hb : b₁ = b₂) (hp : p₁ = p₂) :
    extract_text_from_pdf b₁ p₁ = extract_text_from_pdf b₂ p₂ := by
  rw [hb, hp]

/-- Claim C9 witness. -/
theorem c9_deterministic_witness :
    extract_text_from_pdf (.valid helloWorldDoc) (some "pw") =
      extract_text_from_pdf (.valid helloWorldDoc) (some "pw") :=
  c9_deterministic _ _ _ _ rfl rfl

theorem processPages_allNone (N : Nat) (ps : List (Option String)) :
    ∀ i, (∀ p ∈ ps, p = none) →
      processPages N i ps = ([], (List.range ps.length).map fun j => pageWarning (i + j)) := by
  induction ps with
  | nil => intro i _; simp [processPages]
  | cons p ps ih =>
    intro i h
    have hp : p = none := h p (by simp)
    subst hp
    rw [show processPages N i (none :: ps) =
        ((processPages N (i + 1) ps).1, pageWarning i :: (processPages N (i + 1) ps).2) from rfl]
    rw [ih (i + 1) fun q hq => h q (by simp [hq])]
    simp [List.range_succ_eq_map, List.map_map, Function.comp]
    intro a _
    congr 1
    omega

/-- Claim C5 (confirmed): when the document is unencrypted and no page has
extractable text, extraction succeeds with empty text, and the warning list
is exactly one per-page warning for each page, in page order, followed by
exactly one aggregate no-text warning. -/
theorem c5_all_pages_blank (pdf : PdfDocument) (pw : Option String)
    (henc : pdf.is_encrypted = false)
    (hps : ∀ p ∈ pdf.pages, p = none) :
    extract_text_from_pdf (.valid pdf) pw =
      .ok ("", ((List.range pdf.pages.length).map fun j => pageWarning (1 + j)) ++
        [noTextWarning]) := by
  have hpp := processPages_allNone pdf.pages.length pdf.pages 1 hps
  simp [extract_text_from_pdf, henc, runPages, hpp, joinChunks, pyStrip, pyStripL]

/-- Claim C5 witness: a two-page document with no extractable text. -/
theorem c5_all_pages_blank_witness :
    extract_text_from_pdf (.valid ⟨false, fun _ => false, [none, none]⟩) none =
      .ok ("", ((List.range 2).map fun j => pageWarning (1 + j)) ++ [noTextWarning]) :=
  c5_all_pages_blank ⟨false, fun _ => false, [none, none]⟩ none rfl (by decide)

theorem processPages_allBlank (N : Nat) (ps : List (Option String)) :
    ∀ i, (∀ p ∈ ps, p = some "") →
      processPages N i ps = ((List.range ps.length).map fun j => pageHeader N (i + j), []) := by
  induction ps with
  | nil => intro i _; simp [processPages]
  | cons p ps ih =>
    intro i h
    have hp : p = some "" := h p (by simp)
    subst hp
    rw [show processPages N i (some "" :: ps) =
        ((pageHeader N i ++ "") :: (processPages N (i + 1) ps).1,
          (processPages N (i + 1) ps).2) from rfl]
    rw [ih (i + 1) fun q hq => h q (by simp [hq])]
    simp [List.range_succ_eq_map, List.map_map, Function.comp, String.append_empty]
    intro a _
    congr 1
    omega

theorem mem_dropWhile_of_not {l : List Char} {c : Char} (hc : c ∈ l)
    (hp : isPySpace c = false) : c ∈ l.dropWhile isPySpace := by
  induction l with
  | nil => cases hc
  | cons a l ih =>
    rw [List.dropWhile_cons]
    by_cases ha : isPySpace a = true
    · rw [if_pos ha]
      rcases List.mem_cons.mp hc with h | h
      · subst h; rw [hp] at ha; cases ha
      · exact ih h
    · rw [if_neg ha]
      exact hc

theorem pyStripL_ne_nil_of_mem {l : List Char} {c : Char} (hc : c ∈ l)
    (hp : isPySpace c = false) : pyStripL l ≠ [] := by
  unfold pyStripL
  intro h
  have h1 : c ∈ l.dropWhile isPySpace := mem_dropWhile_of_not hc hp
  have h2 : c ∈ (l.dropWhile isPySpace).reverse := List.mem_reverse.mpr h1
  have h3 := mem_dropWhile_of_not h2 hp
  rw [List.reverse_eq_nil_iff.mp h] at h3
  cases h3

/-- The text produced for a document all of whose pages yield the empty
string: the concatenation of the headers alone, stripped. -/
def headersOnlyText (n : Nat) : String :=
  pyStrip (joinChunks ((List.range n).map fun j => pageHeader n (1 + j)))

theorem headersOnlyText_ne_empty {n : Nat} (h : 2 ≤ n) : headersOnlyText n ≠ "" := by
  cases n with
  | zero => omega
  | succ m =>
    have hm : 1 < m + 1 := by omega
    intro hcontra
    have hdata : (headersOnlyText (m + 1)).data = [] := by rw [hcontra]
    unfold headersOnlyText pyStrip joinChunks at hdata
    rw [List.range_succ_eq_map] at hdata
    simp only [List.map_cons, List.foldr_cons] at hdata
    have hmem : '-' ∈ (pageHeader (m + 1) (1 + 0)).data ++
        ((List.map Nat.succ (List.range m)).map fun j => pageHeader (m + 1) (1 + j)).foldr
          (fun s acc => s.data ++ acc) [] := by
      apply List.mem_append_left
      unfold pageHeader
      rw [if_pos hm]
      decide
    exact pyStripL_ne_nil_of_mem hmem (by decide) hdata

/-- Claim C10 (confirmed): a page yielding the empty string is treated as
having yielded text — no per-page warning, its headered (empty) chunk is
kept — so a multi-page document all of whose pages yield `""` returns a
non-empty text made of the separator headers alone, with no warnings at all
(in particular the aggregate no-text warning is absent). -/
theorem c10_blank_string_pages (pdf : PdfDocument) (pw : Option String)
    (henc : pdf.is_encrypted = false)
    (hlen : 2 ≤ pdf.pages.length)
    (hps : ∀ p ∈ pdf.pages, p = some "") :
    extract_text_from_pdf (.valid pdf) pw = .ok (headersOnlyText pdf.pages.length, []) ∧
      headersOnlyText pdf.pages.length ≠ "" := by
  have hne := headersOnlyText_ne_empty hlen
  have hpp := processPages_allBlank pdf.pages.length pdf.pages 1 hps
  refine ⟨?_, hne⟩
  have hne2 : (pyStrip (joinChunks ((List.range pdf.pages.length).map fun j =>
      pageHeader pdf.pages.length (1 + j))) == "") = false := by
    rw [beq_eq_false_iff_ne]
    exact hne
  simp [extract_text_from_pdf, henc, runPages, hpp, hne2, headersOnlyText]

/-- Claim C10 witness: two pages, each yielding the empty string. -/
theorem c10_blank_string_pages_witness :
    extract_text_from_pdf (.valid ⟨false, fun _ => false, [some "", some ""]⟩) none =
        .ok (headersOnlyText 2, []) ∧
      headersOnlyText 2 ≠ "" :=
  c10_blank_string_pages ⟨false, fun _ => false, [some "", some ""]⟩ none rfl (by decide)
    (by decide)

/-- Claim C6 (confirmed): whenever the batch zip is produced, it has more
than one entry, exactly one entry per successfully processed document, in
batch order; each entry is named by `to_txt_filename` (the source name with
everything after the last dot replaced by `txt`) and holds exactly the text
offered by that document's standalone download button. -/
theorem c6_batch_zip (sh : Bool) (pw : Option String) (ups : List Upload)
    (zs : List (String × String))
    (h : batchZipEntries (processRun sh pw ups) = some zs) :
    1 < zs.length ∧ zs.length = (processRun sh pw ups).length ∧
      zs = ups.filterMap fun u =>
        (standaloneText sh pw u).map fun t => (to_txt_filename u.name, t) := by
  unfold batchZipEntries at h
  by_cases hl : (processRun sh pw ups).length > 1
  · rw [if_pos hl] at h
    obtain rfl : zs = (processRun sh pw ups).map fun o => (o.1, o.2.1) :=
      (Option.some.inj h).symm
    refine ⟨by simpa using hl, by simp, ?_⟩
    unfold processRun standaloneText
    rw [List.map_filterMap]
    apply List.filterMap_congr
    intro u _
    unfold processUpload
    cases extract_text_from_pdf u.content pw with
    | error e => rfl
    | ok r => rfl
  · rw [if_neg hl] at h
    cases h

def uploadA : Upload := ⟨"a.pdf", .valid ⟨false, fun _ => false, [some "Hello"]⟩⟩

def uploadB : Upload := ⟨"b.pdf", .valid ⟨false, fun _ => false, [some "World"]⟩⟩

/-- Claim C6 witness: a two-file batch. -/
theorem c6_batch_zip_witness :
    1 < ([("a.txt", "Hello"), ("b.txt", "World")] : List (String × String)).length ∧
      ([("a.txt", "Hello"), ("b.txt", "World")] : List (String × String)).length =
        (processRun true none [uploadA, uploadB]).length ∧
      ([("a.txt", "Hello"), ("b.txt", "World")] : List (String × String)) =
        [uploadA, uploadB].filterMap fun u =>
          (standaloneText true none u).map fun t => (to_txt_filename u.name, t) :=
  c6_batch_zip true none [uploadA, uploadB] [("a.txt", "Hello"), ("b.txt", "World")] rfl

theorem matchLit_eq_some_iff {ls cs r : List Char} :
    matchLit ls cs = some r ↔ cs = ls ++ r := by
  induction ls generalizing cs with
  | nil => simp [matchLit]
  | cons l ls ih =>
    cases cs with
    | nil => simp [matchLit]
    | cons c cs =>
      by_cases hc : c = l
      · subst hc
        simp [matchLit, ih]
      · simp [matchLit, hc]

theorem matchLit_self {ls cs : List Char} : matchLit ls (ls ++ cs) = some cs :=
  matchLit_eq_some_iff.mpr rfl

theorem matchDigits_sound {cs r : List Char} (h : matchDigits cs = some r) :
    ∃ ds, ds ≠ [] ∧ (∀ c ∈ ds, c.isDigit = true) ∧ cs = ds ++ r := by
  cases cs with
  | nil => cases h
  | cons c cs =>
    rw [matchDigits] at h
    by_cases hc : c.isDigit = true
    · rw [if_pos hc] at h
      obtain rfl : cs.dropWhile Char.isDigit = r := Option.some.inj h
      refine ⟨c :: cs.takeWhile Char.isDigit, by simp, ?_, ?_⟩
      · intro d hd
        rcases List.mem_cons.mp hd with rfl | hd
        · exact hc
        · exact List.mem_takeWhile_imp hd
      · rw [List.cons_append, List.takeWhile_append_dropWhile]
    · rw [if_neg hc] at h
      cases h

theorem matchDigits_complete {ds r : List Char} (h1 : ds ≠ [])
    (h2 : ∀ c ∈ ds, c.isDigit = true)
    (h3 : r = [] ∨ ∃ c r2, r = c :: r2 ∧ c.isDigit = false) :
    matchDigits (ds ++ r) = some r := by
  cases ds with
  | nil => cases h1 rfl
  | cons d ds =>
    rw [List.cons_append, matchDigits, if_pos (h2 d (by simp))]
    congr 1
    rw [List.dropWhile_append]
    have hds : ds.dropWhile Char.isDigit = [] := by
      rw [List.dropWhile_eq_nil_iff]
      intro x hx
      exact h2 x (by simp [hx])
    rw [hds]
    simp only [List.isEmpty_nil, if_true]
    rcases h3 with rfl | ⟨c, r2, rfl, hc⟩
    · rfl
    · exact List.dropWhile_cons_of_neg (by simp [hc])

theorem markerCore_eq_some_iff {cs r : List Char} :
    markerCore cs = some r ↔
      ∃ ds, ds ≠ [] ∧ (∀ c ∈ ds, c.isDigit = true) ∧
        cs = markerL1 ++ (ds ++ (markerL2 ++ r)) := by
  constructor
  · intro h
    unfold markerCore at h
    cases h1 : matchLit markerL1 cs with
    | none => rw [h1, Option.none_bind] at h; cases h
    | some cs1 =>
      rw [h1, Option.some_bind] at h
      cases h2 : matchDigits cs1 with
      | none => rw [h2, Option.none_bind] at h; cases h
      | some cs2 =>
        rw [h2, Option.some_bind] at h
        obtain ⟨ds, hne, hdig, rfl⟩ := matchDigits_sound h2
        have e1 := matchLit_eq_some_iff.mp h1
        have e3 := matchLit_eq_some_iff.mp h
        subst e3
        exact ⟨ds, hne, hdig, by rw [e1]⟩
  · rintro ⟨ds, hne, hdig, rfl⟩
    have hmd : matchDigits (ds ++ (markerL2 ++ r)) = some (markerL2 ++ r) :=
      matchDigits_complete hne hdig (Or.inr ⟨' ', "---".data ++ r, rfl, by decide⟩)
    unfold markerCore
    rw [matchLit_self, Option.some_bind, hmd, Option.some_bind]
    exact matchLit_self

theorem markerCore_mono {cs r q : List Char} (h : markerCore cs = some r) :
    markerCore (cs ++ q) = some (r ++ q) := by
  obtain ⟨ds, hne, hdig, rfl⟩ := markerCore_eq_some_iff.mp h
  exact markerCore_eq_some_iff.mpr ⟨ds, hne, hdig, by simp [List.append_assoc]⟩

theorem markerCore_crossing {a b r : List Char}
    (hb : b = [] ∨ ∃ b2, b = '\n' :: b2)
    (h : markerCore (a ++ b) = some r) :
    ∃ w, markerCore a = some w ∧ r = w ++ b := by
  obtain ⟨ds, hne, hdig, heq⟩ := markerCore_eq_some_iff.mp h
  have hnl : '\n' ∉ markerL1 ++ (ds ++ markerL2) := by
    intro hmem
    rcases List.mem_append.mp hmem with h1 | h12
    · revert h1; decide
    · rcases List.mem_append.mp h12 with h2 | h3
      · exact absurd (hdig _ h2) (by decide)
      · revert h3; decide
  have heq2 : (markerL1 ++ (ds ++ markerL2)) ++ r = a ++ b := by
    rw [heq]
    simp [List.append_assoc]
  rcases List.append_eq_append_iff.mp heq2 with ⟨a2, ha, hr⟩ | ⟨c2, hc, hb2⟩
  · exact ⟨a2, markerCore_eq_some_iff.mpr
      ⟨ds, hne, hdig, by rw [ha]; simp [List.append_assoc]⟩, hr⟩
  · cases c2 with
    | nil =>
      rw [List.append_nil] at hc
      refine ⟨[], markerCore_eq_some_iff.mpr
        ⟨ds, hne, hdig, by rw [← hc]; simp⟩, ?_⟩
      rw [List.nil_append]
      rw [List.nil_append] at hb2
      exact hb2.symm
    | cons ch c2 =>
      exfalso
      rcases hb with rfl | ⟨b2, rfl⟩
      · simp at hb2
      · have hcons : '\n' :: b2 = ch :: (c2 ++ r) := by simpa using hb2
        obtain rfl : '\n' = ch := (List.cons.inj hcons).1
        exact hnl (by rw [hc]; simp)

theorem matchMarker_length {cs r : List Char} (h : matchMarker cs = some r) :
    r.length < cs.length := by
  unfold matchMarker at h
  cases h1 : markerCore (cs.dropWhile isPySpace) with
  | none => rw [h1, Option.map_none'] at h; cases h
  | some r0 =>
    rw [h1, Option.map_some'] at h
    obtain rfl : r0.dropWhile isPySpace = r := Option.some.inj h
    obtain ⟨ds, hne, hdig, heq⟩ := markerCore_eq_some_iff.mp h1
    have l1 : (cs.dropWhile isPySpace).length ≤ cs.length :=
      (List.dropWhile_suffix isPySpace).length_le
    have l2 : (r0.dropWhile isPySpace).length ≤ r0.length :=
      (List.dropWhile_suffix isPySpace).length_le
    have l3 : r0.length < (cs.dropWhile isPySpace).length := by
      rw [heq]
      have h11 : 0 < markerL1.length := by decide
      simp [List.length_append]
      omega
    omega

theorem scanFuel_irrel : ∀ (n f : Nat) (cs : List Char), cs.length ≤ n → cs.length ≤ f →
    scanFuel f cs = scanFuel cs.length cs := by
  intro n
  induction n with
  | zero =>
    intro f cs hn _
    obtain rfl : cs = [] := List.length_eq_zero.mp (Nat.le_zero.mp hn)
    cases f with
    | zero => rfl
    | succ f => rfl
  | succ n ih =>
    intro f cs hn hf
    cases cs with
    | nil => cases f with | zero => rfl | succ f => rfl
    | cons c cs =>
      cases f with
      | zero => simp at hf
      | succ f =>
        simp only [List.length_cons] at hn hf ⊢
        simp only [scanFuel]
        cases hm : matchMarker (c :: cs) with
        | some rest =>
          have hlen := matchMarker_length hm
          simp only [List.length_cons] at hlen
          show none :: scanFuel f rest = none :: scanFuel cs.length rest
          rw [ih f rest (by omega) (by omega), ih cs.length rest (by omega) (by omega)]
        | none =>
          show some c :: scanFuel f cs = some c :: scanFuel cs.length cs
          rw [ih f cs (by omega) (by omega)]

theorem scanFuel_eq_scanMarkers {f : Nat} {cs : List Char} (h : cs.length ≤ f) :
    scanFuel f cs = scanMarkers cs :=
  scanFuel_irrel cs.length f cs (Nat.le_refl _) h

/-- No attempt of the separator pattern succeeds while scanning through `u`
(with `v` following it). -/
def noMarkerAt (u v : List Char) : Prop :=
  ∀ s, s <:+ u → s ≠ [] → matchMarker (s ++ v) = none

theorem scanMarkers_append {u v : List Char} (h : noMarkerAt u v) :
    scanMarkers (u ++ v) = u.map some ++ scanMarkers v := by
  induction u with
  | nil => simp
  | cons c u ih =>
    have h' : noMarkerAt u v := fun s hs hne => h s (hs.trans (List.suffix_cons c u)) hne
    have hm : matchMarker (c :: (u ++ v)) = none := h (c :: u) (List.suffix_refl _) (by simp)
    have step : scanMarkers (c :: (u ++ v)) = some c :: scanMarkers (u ++ v) := by
      unfold scanMarkers
      simp only [List.length_cons, scanFuel]
      rw [hm]
    rw [show (c :: u) ++ v = c :: (u ++ v) from rfl, step, ih h']
    rfl

theorem markerFreeL_spec {l : List Char} (h : markerFreeL l = true) :
    ∀ s, s <:+ l → markerCore s = none := by
  intro s hs
  have := List.all_eq_true.mp h s ((List.mem_tails s l).mpr hs)
  simpa using this

theorem lastNonWs_suffix {s t : List Char} (h : s <:+ t) (hne : s ≠ [])
    (hlast : headNonWs t.reverse = true) : headNonWs s.reverse = true := by
  obtain ⟨pre, rfl⟩ := h
  rw [List.reverse_append] at hlast
  cases hsr : s.reverse with
  | nil => exact absurd (List.reverse_eq_nil_iff.mp hsr) hne
  | cons c z =>
    rw [hsr, List.cons_append] at hlast
    simp only [headNonWs] at hlast ⊢
    exact hlast

theorem dropWhile_ne_nil_of_lastNonWs {s : List Char} (h : headNonWs s.reverse = true) :
    s.dropWhile isPySpace ≠ [] := by
  intro hc
  rw [List.dropWhile_eq_nil_iff] at hc
  cases hsr : s.reverse with
  | nil =>
    rw [hsr] at h
    simp [headNonWs] at h
  | cons c z =>
    rw [hsr] at h
    simp only [headNonWs] at h
    have hcm : c ∈ s := List.mem_reverse.mp (by rw [hsr]; simp)
    rw [hc c hcm] at h
    cases h

theorem noMarkerAt_of_clean {t v : List Char}
    (hlast : headNonWs t.reverse = true)
    (hmf : ∀ s, s <:+ t → markerCore s = none)
    (hv : v = [] ∨ ∃ v2, v = '\n' :: v2) :
    noMarkerAt t v := by
  intro s hs hne
  unfold matchMarker
  have hlast_s : headNonWs s.reverse = true := lastNonWs_suffix hs hne hlast
  have hdw_ne : s.dropWhile isPySpace ≠ [] := dropWhile_ne_nil_of_lastNonWs hlast_s
  have hsplit : (s ++ v).dropWhile isPySpace = s.dropWhile isPySpace ++ v := by
    rw [List.dropWhile_append, if_neg (by simp [hdw_ne])]
  rw [hsplit]
  cases hmc : markerCore (s.dropWhile isPySpace ++ v) with
  | none => rw [Option.map_none']
  | some r =>
    exfalso
    obtain ⟨w, hw, _⟩ := markerCore_crossing hv hmc
    have hs' : s.dropWhile isPySpace <:+ t := (List.dropWhile_suffix isPySpace).trans hs
    rw [hmf _ hs'] at hw
    exact Option.noConfusion hw

/-- When the whole text has no marker substring, no pattern attempt succeeds
anywhere in it, even at its very end. -/
theorem noMarkerAt_nil_of_markerFree {t : List Char}
    (hmf : ∀ s, s <:+ t → markerCore s = none) :
    noMarkerAt t [] := by
  intro s hs _
  unfold matchMarker
  rw [List.append_nil]
  have hs' : s.dropWhile isPySpace <:+ t := (List.dropWhile_suffix isPySpace).trans hs
  rw [hmf _ hs', Option.map_none']

theorem matchMarker_cons_ws {c : Char} {cs : List Char} (h : isPySpace c = true) :
    matchMarker (c :: cs) = matchMarker cs := by
  unfold matchMarker
  rw [List.dropWhile_cons_of_pos h]

theorem toDigitsCore_digits (fuel : Nat) :
    ∀ (n : Nat) (ds : List Char), (∀ c ∈ ds, c.isDigit = true) →
      ∀ c ∈ Nat.toDigitsCore 10 fuel n ds, c.isDigit = true := by
  induction fuel with
  | zero =>
    intro n ds hds c hc
    simp only [Nat.toDigitsCore] at hc
    exact hds c hc
  | succ fuel ih =>
    intro n ds hds c hc
    have hd : (Nat.digitChar (n % 10)).isDigit = true := by
      have h10 : n % 10 < 10 := Nat.mod_lt _ (by decide)
      set m := n % 10 with hm
      interval_cases m <;> decide
    simp only [Nat.toDigitsCore] at hc
    split at hc
    · rcases List.mem_cons.mp hc with rfl | hmem
      · exact hd
      · exact hds _ hmem
    · refine ih _ _ ?_ c hc
      intro x hx
      rcases List.mem_cons.mp hx with rfl | hxx
      · exact hd
      · exact hds _ hxx

theorem toDigitsCore_ne_nil (fuel : Nat) :
    ∀ (n : Nat) (ds : List Char), (fuel ≠ 0 ∨ ds ≠ []) →
      Nat.toDigitsCore 10 fuel n ds ≠ [] := by
  induction fuel with
  | zero =>
    intro n ds h
    rcases h with h | h
    · cases h rfl
    · simpa [Nat.toDigitsCore] using h
  | succ fuel ih =>
    intro n ds _
    simp only [Nat.toDigitsCore]
    split
    · simp
    · exact ih _ _ (Or.inr (by simp))

theorem toString_nat_digits (n : Nat) :
    (toString n).data ≠ [] ∧ ∀ c ∈ (toString n).data, c.isDigit = true := by
  have he : (toString n).data = Nat.toDigitsCore 10 (n + 1) n [] := rfl
  constructor
  · rw [he]
    exact toDigitsCore_ne_nil (n + 1) n [] (Or.inl (by omega))
  · rw [he]
    exact toDigitsCore_digits (n + 1) n [] (by intro c hc; cases hc)

theorem matchMarker_header {i : Nat} {t rest : List Char} (ht : headNonWs t = true) :
    matchMarker (markerL1 ++ ((toString i).data ++ (markerL2 ++ ('\n' :: '\n' :: (t ++ rest))))) =
      some (t ++ rest) := by
  obtain ⟨c, t', rfl⟩ : ∃ c t', t = c :: t' := by
    cases t with
    | nil => simp [headNonWs] at ht
    | cons c t' => exact ⟨c, t', rfl⟩
  have hc : isPySpace c = false := by
    simp only [headNonWs, Bool.not_eq_true'] at ht
    exact ht
  unfold matchMarker
  have hshape : markerL1 ++ ((toString i).data ++ (markerL2 ++ ('\n' :: '\n' :: ((c :: t') ++ rest)))) =
      '-' :: ("-- Página ".data ++ ((toString i).data ++ (markerL2 ++ ('\n' :: '\n' :: ((c :: t') ++ rest))))) := rfl
  rw [hshape, List.dropWhile_cons_of_neg (by decide), ← hshape]
  rw [markerCore_eq_some_iff.mpr
    ⟨(toString i).data, (toString_nat_digits i).1, (toString_nat_digits i).2, rfl⟩]
  rw [Option.map_some']
  congr 1
  rw [List.dropWhile_cons_of_pos (by decide), List.dropWhile_cons_of_pos (by decide),
    List.cons_append, List.dropWhile_cons_of_neg (by simp [hc])]

/-- The pages that yielded text, with their 1-based page numbers, starting the
count at `i` (mirrors `enumerate(pdf.pages, start=1)` restricted to pages with
text). -/
def yieldedL : Nat → List (Option String) → List (Nat × String)
  | _, [] => []
  | i, none :: ps => yieldedL (i + 1) ps
  | i, some t :: ps => (i, t) :: yieldedL (i + 1) ps

theorem processPages_fst (N : Nat) : ∀ (ps : List (Option String)) (i : Nat),
    (processPages N i ps).1 = (yieldedL i ps).map fun p => pageHeader N p.1 ++ p.2 := by
  intro ps
  induction ps with
  | nil => intro i; rfl
  | cons p ps ih =>
    intro i
    cases p with
    | none =>
      show (processPages N (i + 1) ps).1 = _
      rw [ih]
      rfl
    | some t =>
      show (pageHeader N i ++ t) :: (processPages N (i + 1) ps).1 = _
      rw [ih]
      rfl

theorem yieldedL_map_snd : ∀ (ps : List (Option String)) (i : Nat),
    (yieldedL i ps).map (fun p => p.2) = ps.filterMap id := by
  intro ps
  induction ps with
  | nil => intro i; rfl
  | cons p ps ih =>
    intro i
    cases p with
    | none =>
      show (yieldedL (i + 1) ps).map _ = List.filterMap id (none :: ps)
      rw [ih]
      simp [List.filterMap_cons]
    | some t =>
      show t :: (yieldedL (i + 1) ps).map _ = List.filterMap id (some t :: ps)
      rw [ih]
      simp [List.filterMap_cons]

theorem yieldedL_snd_mem {ps : List (Option String)} {i : Nat} {p : Nat × String}
    (hp : p ∈ yieldedL i ps) : p.2 ∈ ps.filterMap id := by
  rw [← yieldedL_map_snd ps i]
  exact List.mem_map_of_mem _ hp

theorem cleanTextB_spec {t : String} (h : cleanTextB t = true) :
    headNonWs t.data = true ∧ headNonWs t.data.reverse = true ∧ markerFreeL t.data = true := by
  simpa [cleanTextB, Bool.and_eq_true, and_assoc] using h

/-- The character-list form of the joined chunks of the yielded pages (each
header followed by the page's text), for a document with more than one page. -/
def listChunks : List (Nat × String) → List Char
  | [] => []
  | p :: ps =>
    '\n' :: '\n' :: (markerL1 ++ ((toString p.1).data ++ (markerL2 ++
      ('\n' :: '\n' :: (p.2.data ++ listChunks ps)))))

theorem joinChunks_headers_data {N : Nat} (hN : 1 < N) :
    ∀ yp : List (Nat × String),
      (joinChunks (yp.map fun p => pageHeader N p.1 ++ p.2)).data = listChunks yp := by
  intro yp
  induction yp with
  | nil => rfl
  | cons p yp ih =>
    have e1 : (joinChunks ((p :: yp).map fun q => pageHeader N q.1 ++ q.2)).data =
        (pageHeader N p.1 ++ p.2).data ++
          (joinChunks (yp.map fun q => pageHeader N q.1 ++ q.2)).data := rfl
    rw [e1, ih, String.data_append]
    have e2 : (pageHeader N p.1).data =
        '\n' :: '\n' :: (markerL1 ++ ((toString p.1).data ++ (markerL2 ++ ['\n', '\n']))) := by
      unfold pageHeader
      rw [if_pos hN, String.data_append, String.data_append]
      rfl
    rw [e2]
    show ('\n' :: '\n' :: (markerL1 ++ ((toString p.1).data ++ (markerL2 ++ ['\n', '\n']))) ++
        p.2.data) ++ listChunks yp =
      '\n' :: '\n' :: (markerL1 ++ ((toString p.1).data ++ (markerL2 ++
        ('\n' :: '\n' :: (p.2.data ++ listChunks yp)))))
    simp [List.append_assoc]

theorem listChunks_shape (yp : List (Nat × String)) :
    listChunks yp = [] ∨ ∃ z, listChunks yp = '\n' :: z := by
  cases yp with
  | nil => exact Or.inl rfl
  | cons p yp => exact Or.inr ⟨_, rfl⟩

theorem markerShape_ne_nil {X : List Char} : markerL1 ++ X ≠ [] := by
  intro h
  have hlen := congrArg List.length h
  have h11 : markerL1.length = 11 := by decide
  simp [List.length_append, h11] at hlen

theorem ne_nil_of_headNonWs {l : List Char} (h : headNonWs l = true) : l ≠ [] := by
  intro hl
  rw [hl] at h
  simp [headNonWs] at h

theorem headNonWs_append_left {A B : List Char} (hA : A ≠ []) :
    headNonWs (A ++ B) = headNonWs A := by
  cases A with
  | nil => cases hA rfl
  | cons c z => rw [List.cons_append]; rfl

theorem lastNonWs_append {A B : List Char} (hB : B ≠ []) :
    headNonWs (A ++ B).reverse = headNonWs B.reverse := by
  rw [List.reverse_append]
  apply headNonWs_append_left
  intro h
  exact hB (List.reverse_eq_nil_iff.mp h)

theorem lastNonWs_append2 {A B : List Char} (h : headNonWs B.reverse = true) :
    headNonWs (A ++ B).reverse = true := by
  rw [lastNonWs_append fun hB => ne_nil_of_headNonWs h (by rw [hB]; rfl)]
  exact h

theorem dropWhile_of_headNonWs {l : List Char} (h : headNonWs l = true) :
    l.dropWhile isPySpace = l := by
  cases l with
  | nil => rfl
  | cons c z =>
    simp only [headNonWs, Bool.not_eq_true'] at h
    exact List.dropWhile_cons_of_neg (by simp [h])

theorem listChunks_lastNonWs : ∀ yp : List (Nat × String), yp ≠ [] →
    (∀ q ∈ yp, cleanTextB q.2 = true) →
    headNonWs (listChunks yp).reverse = true := by
  intro yp
  induction yp with
  | nil => intro h; cases h rfl
  | cons p yp ih =>
    intro _ h
    obtain ⟨hh, hl, hm⟩ := cleanTextB_spec (h p (by simp))
    have hsplit : listChunks (p :: yp) = ('\n' :: '\n' :: (markerL1 ++ ((toString p.1).data ++
        (markerL2 ++ ['\n', '\n'])))) ++ (p.2.data ++ listChunks yp) := by
      show '\n' :: '\n' :: (markerL1 ++ ((toString p.1).data ++ (markerL2 ++
        ('\n' :: '\n' :: (p.2.data ++ listChunks yp))))) = _
      simp [List.append_assoc]
    rw [hsplit]
    apply lastNonWs_append2
    cases yp with
    | nil =>
      show headNonWs (p.2.data ++ listChunks []).reverse = true
      rw [show listChunks [] = [] from rfl, List.append_nil]
      exact hl
    | cons q yp2 =>
      apply lastNonWs_append2
      exact ih (by simp) fun x hx => h x (by simp [hx])

theorem pyStripL_listChunks (p : Nat × String) (yp : List (Nat × String))
    (h : ∀ q ∈ p :: yp, cleanTextB q.2 = true) :
    pyStripL (listChunks (p :: yp)) =
      markerL1 ++ ((toString p.1).data ++ (markerL2 ++
        ('\n' :: '\n' :: (p.2.data ++ listChunks yp)))) := by
  have hlast := listChunks_lastNonWs (p :: yp) (by simp) h
  have hfront : (listChunks (p :: yp)).dropWhile isPySpace =
      markerL1 ++ ((toString p.1).data ++ (markerL2 ++
        ('\n' :: '\n' :: (p.2.data ++ listChunks yp)))) := by
    have e0 : listChunks (p :: yp) = '\n' :: '\n' :: (markerL1 ++ ((toString p.1).data ++
        (markerL2 ++ ('\n' :: '\n' :: (p.2.data ++ listChunks yp))))) := rfl
    rw [e0, List.dropWhile_cons_of_pos (by decide), List.dropWhile_cons_of_pos (by decide)]
    have e1 : markerL1 ++ ((toString p.1).data ++ (markerL2 ++
        ('\n' :: '\n' :: (p.2.data ++ listChunks yp)))) =
        '-' :: ("-- Página ".data ++ ((toString p.1).data ++ (markerL2 ++
          ('\n' :: '\n' :: (p.2.data ++ listChunks yp))))) := rfl
    rw [e1, List.dropWhile_cons_of_neg (by decide), ← e1]
  have hWrev : headNonWs ((listChunks (p :: yp)).dropWhile isPySpace).reverse = true := by
    apply lastNonWs_suffix (List.dropWhile_suffix isPySpace) _ hlast
    rw [hfront]
    exact markerShape_ne_nil
  unfold pyStripL
  rw [dropWhile_of_headNonWs hWrev, List.reverse_reverse, hfront]

/-- The token stream the scan produces on the chunks of the yielded pages:
one marker per page followed by the page's characters. -/
def tokensOf : List (Nat × String) → List (Option Char)
  | [] => []
  | p :: yp => none :: (p.2.data.map some ++ tokensOf yp)

theorem scanMarkers_cons_match {c : Char} {cs rest : List Char}
    (hm : matchMarker (c :: cs) = some rest) :
    scanMarkers (c :: cs) = none :: scanMarkers rest := by
  have hlen := matchMarker_length hm
  simp only [List.length_cons] at hlen
  unfold scanMarkers
  simp only [List.length_cons, scanFuel]
  rw [hm]
  show none :: scanFuel cs.length rest = none :: scanFuel rest.length rest
  rw [scanFuel_irrel rest.length cs.length rest (Nat.le_refl _) (by omega)]

theorem scanMarkers_match {cs rest : List Char} (hne : cs ≠ [])
    (hm : matchMarker cs = some rest) :
    scanMarkers cs = none :: scanMarkers rest := by
  cases cs with
  | nil => cases hne rfl
  | cons c cs => exact scanMarkers_cons_match hm

theorem scan_listChunks : ∀ yp : List (Nat × String),
    (∀ p ∈ yp, cleanTextB p.2 = true) →
    scanMarkers (listChunks yp) = tokensOf yp := by
  intro yp
  induction yp with
  | nil => intro _; rfl
  | cons p yp ih =>
    intro h
    obtain ⟨hhead, hlast, hmf⟩ := cleanTextB_spec (h p (by simp))
    have hmm : matchMarker (listChunks (p :: yp)) = some (p.2.data ++ listChunks yp) := by
      show matchMarker ('\n' :: '\n' :: (markerL1 ++ ((toString p.1).data ++ (markerL2 ++
        ('\n' :: '\n' :: (p.2.data ++ listChunks yp)))))) = _
      rw [matchMarker_cons_ws (by decide), matchMarker_cons_ws (by decide)]
      exact matchMarker_header hhead
    rw [scanMarkers_match (by intro hc; cases hc) hmm]
    rw [scanMarkers_append (noMarkerAt_of_clean hlast (markerFreeL_spec hmf) (listChunks_shape yp))]
    rw [ih fun q hq => h q (by simp [hq])]
    rfl

theorem renderSub_map_some_append : ∀ (l : List Char) (ts : List (Option Char)),
    renderSub (l.map some ++ ts) = l ++ renderSub ts := by
  intro l ts
  induction l with
  | nil => rfl
  | cons c l ih =>
    show renderSub (some c :: (l.map some ++ ts)) = c :: (l ++ renderSub ts)
    rw [show renderSub (some c :: (l.map some ++ ts)) =
      c :: renderSub (l.map some ++ ts) from rfl, ih]

theorem renderSub_map_some (l : List Char) : renderSub (l.map some) = l := by
  have h := renderSub_map_some_append l []
  simpa [renderSub] using h

theorem renderSub_tokensOf : ∀ yp : List (Nat × String),
    renderSub (tokensOf yp) = yp.foldr (fun q acc => '\n' :: (q.2.data ++ acc)) [] := by
  intro yp
  induction yp with
  | nil => rfl
  | cons p yp ih =>
    show renderSub (none :: (p.2.data.map some ++ tokensOf yp)) = _
    rw [show renderSub (none :: (p.2.data.map some ++ tokensOf yp)) =
      '\n' :: renderSub (p.2.data.map some ++ tokensOf yp) from rfl]
    rw [renderSub_map_some_append, ih]
    rfl

theorem foldr_newline_njoin : ∀ (yp : List (Nat × String)) (p : Nat × String),
    (p :: yp).foldr (fun q acc => '\n' :: (q.2.data ++ acc)) [] =
      '\n' :: njoin ((p :: yp).map fun q => q.2.data) := by
  intro yp
  induction yp with
  | nil =>
    intro p
    show '\n' :: (p.2.data ++ []) = '\n' :: njoin [p.2.data]
    rw [List.append_nil]
    rfl
  | cons q yp ih =>
    intro p
    show '\n' :: (p.2.data ++ (q :: yp).foldr (fun r acc => '\n' :: (r.2.data ++ acc)) []) = _
    rw [ih q]
    rfl

theorem njoin_headNonWs {x : List Char} {xs : List (List Char)} (hx : headNonWs x = true) :
    headNonWs (njoin (x :: xs)) = true := by
  cases xs with
  | nil => exact hx
  | cons y ys =>
    show headNonWs (x ++ '\n' :: njoin (y :: ys)) = true
    rw [headNonWs_append_left (ne_nil_of_headNonWs hx)]
    exact hx

theorem njoin_lastNonWs : ∀ xs : List (List Char), xs ≠ [] →
    (∀ x ∈ xs, headNonWs x.reverse = true) →
    headNonWs (njoin xs).reverse = true := by
  intro xs
  induction xs with
  | nil => intro h; cases h rfl
  | cons x xs ih =>
    intro _ h
    cases xs with
    | nil => exact h x (by simp)
    | cons y ys =>
      show headNonWs (x ++ '\n' :: njoin (y :: ys)).reverse = true
      apply lastNonWs_append2
      have hrec := ih (by simp) fun q hq => h q (by simp [hq])
      have hne2 : (njoin (y :: ys)).reverse ≠ [] := by
        intro hc
        rw [hc] at hrec
        simp [headNonWs] at hrec
      rw [List.reverse_cons, headNonWs_append_left hne2]
      exact hrec

theorem dropWhile_headNonWs (l : List Char) :
    l.dropWhile isPySpace = [] ∨ headNonWs (l.dropWhile isPySpace) = true := by
  induction l with
  | nil => exact Or.inl rfl
  | cons c z ih =>
    by_cases hc : isPySpace c = true
    · rw [List.dropWhile_cons_of_pos hc]
      exact ih
    · right
      rw [List.dropWhile_cons_of_neg (by simp [hc])]
      simp [headNonWs, hc]

theorem pyStripL_eq_self {m : List Char} (h1 : headNonWs m = true)
    (h2 : headNonWs m.reverse = true) : pyStripL m = m := by
  unfold pyStripL
  rw [dropWhile_of_headNonWs h1, dropWhile_of_headNonWs h2, List.reverse_reverse]

theorem pyStripL_headNonWs (l : List Char) :
    pyStripL l = [] ∨
      (headNonWs (pyStripL l) = true ∧ headNonWs (pyStripL l).reverse = true) := by
  cases hD : l.dropWhile isPySpace with
  | nil =>
    left
    unfold pyStripL
    rw [hD]
    rfl
  | cons d z0 =>
    have hDhead : headNonWs (l.dropWhile isPySpace) = true := by
      rcases dropWhile_headNonWs l with h | h
      · rw [hD] at h; cases h
      · exact h
    cases hR : (l.dropWhile isPySpace).reverse.dropWhile isPySpace with
    | nil =>
      left
      unfold pyStripL
      rw [hR]
      rfl
    | cons c z =>
      right
      have hRhead : headNonWs ((l.dropWhile isPySpace).reverse.dropWhile isPySpace) = true := by
        rcases dropWhile_headNonWs (l.dropWhile isPySpace).reverse with h | h
        · rw [hR] at h; cases h
        · exact h
      constructor
      · show headNonWs ((l.dropWhile isPySpace).reverse.dropWhile isPySpace).reverse = true
        have hsub : (l.dropWhile isPySpace).reverse.dropWhile isPySpace <:+
            (l.dropWhile isPySpace).reverse := List.dropWhile_suffix _
        have hrev : headNonWs ((l.dropWhile isPySpace).reverse).reverse = true := by
          rw [List.reverse_reverse]
          exact hDhead
        exact lastNonWs_suffix hsub (by rw [hR]; simp) hrev
      · show headNonWs ((l.dropWhile isPySpace).reverse.dropWhile isPySpace).reverse.reverse = true
        rw [List.reverse_reverse]
        exact hRhead

theorem pyStripL_idem (l : List Char) : pyStripL (pyStripL l) = pyStripL l := by
  rcases pyStripL_headNonWs l with h | ⟨h1, h2⟩
  · rw [h]
    rfl
  · exact pyStripL_eq_self h1 h2

theorem pyStripL_newline_njoin {J : List Char} (h1 : headNonWs J = true)
    (h2 : headNonWs J.reverse = true) :
    pyStripL ('\n' :: J) = J := by
  unfold pyStripL
  rw [List.dropWhile_cons_of_pos (by decide), dropWhile_of_headNonWs h1,
    dropWhile_of_headNonWs h2, List.reverse_reverse]

theorem splitTok_map_some : ∀ (l : List Char) {ts : List (Option Char)} {h : List Char}
    {tl : List (List Char)}, splitTok ts = h :: tl →
    splitTok (l.map some ++ ts) = (l ++ h) :: tl := by
  intro l
  induction l with
  | nil =>
    intro ts h tl he
    exact he
  | cons c l ih =>
    intro ts h tl he
    show splitTok (some c :: (l.map some ++ ts)) = ((c :: l) ++ h) :: tl
    have e : splitTok (some c :: (l.map some ++ ts)) =
        match splitTok (l.map some ++ ts) with
        | [] => [[c]]
        | s :: ss => (c :: s) :: ss := rfl
    rw [e, ih he]
    rfl

theorem splitTok_tokensOf : ∀ yp : List (Nat × String),
    splitTok (tokensOf yp) = [] :: yp.map fun q => q.2.data := by
  intro yp
  induction yp with
  | nil => rfl
  | cons p yp ih =>
    show splitTok (none :: (p.2.data.map some ++ tokensOf yp)) = _
    have e : splitTok (none :: (p.2.data.map some ++ tokensOf yp)) =
        [] :: splitTok (p.2.data.map some ++ tokensOf yp) := rfl
    rw [e, splitTok_map_some p.2.data ih, List.append_nil]
    rfl

theorem extract_ok_eq {pdf : PdfDocument} {pw : Option String}
    {res : String × List String}
    (h : extract_text_from_pdf (.valid pdf) pw = .ok res) : res = runPages pdf := by
  unfold extract_text_from_pdf at h
  by_cases henc : pdf.is_encrypted = true
  · by_cases hpw : passwordTruthy pw = true
    · by_cases hd : pdf.decrypt (pw.getD "") = true
      · simp [henc, hpw, hd] at h
        exact h.symm
      · simp [henc, hpw, hd] at h
    · simp [henc, hpw] at h
  · simp [henc] at h
    exact h.symm

theorem runPages_fst (pdf : PdfDocument) :
    (runPages pdf).1 = pyStrip (joinChunks (processPages pdf.pages.length 1 pdf.pages).1) := by
  by_cases hc : (pyStrip (joinChunks (processPages pdf.pages.length 1 pdf.pages).1) == "") = true
  · simp [runPages, hc]
  · simp [runPages, hc]

theorem extract_ok_text {pdf : PdfDocument} {pw : Option String} {text : String}
    {warns : List String}
    (h : extract_text_from_pdf (.valid pdf) pw = .ok (text, warns)) :
    text = pyStrip (joinChunks (processPages pdf.pages.length 1 pdf.pages).1) := by
  have he := extract_ok_eq h
  have h2 : text = (runPages pdf).1 := by rw [← he]
  rw [h2, runPages_fst]

theorem markerFreeL_of_spec {l : List Char}
    (h : ∀ s, s <:+ l → markerCore s = none) : markerFreeL l = true := by
  unfold markerFreeL
  rw [List.all_eq_true]
  intro s hs
  rw [h s ((List.mem_tails s l).mp hs)]
  rfl

theorem markerFree_pyStripL {t : List Char}
    (hmf : ∀ s, s <:+ t → markerCore s = none) :
    ∀ s, s <:+ pyStripL t → markerCore s = none := by
  intro s hs
  cases hmc : markerCore s with
  | none => rfl
  | some r =>
    exfalso
    obtain ⟨pre, hpre⟩ := hs
    set tws := ((t.dropWhile isPySpace).reverse.takeWhile isPySpace).reverse with htws
    have hD : t.dropWhile isPySpace = pyStripL t ++ tws := by
      rw [htws]
      unfold pyStripL
      rw [← List.reverse_append, List.takeWhile_append_dropWhile, List.reverse_reverse]
    have h1 : s ++ tws <:+ t.dropWhile isPySpace :=
      ⟨pre, by rw [hD, ← hpre, List.append_assoc]⟩
    have hsuff := h1.trans (List.dropWhile_suffix isPySpace)
    have hnone := hmf _ hsuff
    rw [markerCore_mono hmc] at hnone
    cases hnone

/-- The stripped extraction text of a multi-page document with clean page
texts, and its token scan: one marker per yielded page followed by that
page's characters. -/
theorem scan_extract_text (pdf : PdfDocument)
    (hlen : 1 < pdf.pages.length)
    (hclean : ∀ t ∈ pdf.pages.filterMap id, cleanTextB t = true)
    (text : String)
    (htext : text = pyStrip (joinChunks (processPages pdf.pages.length 1 pdf.pages).1)) :
    text.data = pyStripL (listChunks (yieldedL 1 pdf.pages)) ∧
      scanMarkers text.data = tokensOf (yieldedL 1 pdf.pages) := by
  have hj : (joinChunks (processPages pdf.pages.length 1 pdf.pages).1).data =
      listChunks (yieldedL 1 pdf.pages) := by
    rw [processPages_fst]
    exact joinChunks_headers_data hlen _
  have h1 : text.data = pyStripL (listChunks (yieldedL 1 pdf.pages)) := by
    rw [htext]
    show pyStripL (joinChunks (processPages pdf.pages.length 1 pdf.pages).1).data = _
    rw [hj]
  refine ⟨h1, ?_⟩
  have hcleanyp : ∀ q ∈ yieldedL 1 pdf.pages, cleanTextB q.2 = true := fun q hq =>
    hclean q.2 (yieldedL_snd_mem hq)
  cases hyp2 : yieldedL 1 pdf.pages with
  | nil =>
    rw [h1, hyp2]
    rfl
  | cons p yp2 =>
    rw [hyp2] at hcleanyp
    obtain ⟨hh, hl, hmf⟩ := cleanTextB_spec (hcleanyp p (by simp))
    rw [h1, hyp2, pyStripL_listChunks p yp2 hcleanyp]
    rw [scanMarkers_match markerShape_ne_nil (matchMarker_header hh)]
    rw [scanMarkers_append (noMarkerAt_of_clean hl (markerFreeL_spec hmf) (listChunks_shape yp2))]
    rw [scan_listChunks yp2 fun q hq => hcleanyp q (by simp [hq])]
    rfl

/-- Claim C3 (corrected), counterexample: for the two-page Hello/World
document the extraction succeeds, but the caller-side separator-removal
transform gives `Hello\nWorld` (the pages joined by a newline), while an
extraction that had never inserted separators would concatenate the page
texts directly into `HelloWorld` — the two differ. -/
theorem c3_counterexample :
    extract_text_from_pdf (.valid helloWorldDoc) none = .ok (helloWorldText, []) ∧
      removeSeparators helloWorldText ≠ extractTextNoSeparators helloWorldDoc := by
  constructor
  · rfl
  · decide

/-- Claim C3 (amended): for every successful multi-page extraction whose
yielded page texts are nonempty, free of leading/trailing whitespace and of
marker substrings, the caller-side separator-removal transform deletes every
inserted `--- Página <n> ---` header and yields the page texts joined by
single newlines — not the direct concatenation that separator-free
extraction would have produced. -/
theorem c3_remove_separators (pdf : PdfDocument) (pw : Option String)
    (text : String) (warns : List String)
    (hlen : 1 < pdf.pages.length)
    (hclean : ∀ t ∈ pdf.pages.filterMap id, cleanTextB t = true)
    (hok : extract_text_from_pdf (.valid pdf) pw = .ok (text, warns)) :
    removeSeparators text = joinedByNewlines (pdf.pages.filterMap id) := by
  obtain ⟨htd, hscan⟩ := scan_extract_text pdf hlen hclean text (extract_ok_text hok)
  unfold removeSeparators
  rw [hscan]
  have hcleanyp : ∀ q ∈ yieldedL 1 pdf.pages, cleanTextB q.2 = true := fun q hq =>
    hclean q.2 (yieldedL_snd_mem hq)
  cases hyp2 : yieldedL 1 pdf.pages with
  | nil =>
    have hfm : pdf.pages.filterMap id = [] := by
      rw [← yieldedL_map_snd pdf.pages 1, hyp2]
      rfl
    rw [hfm]
    rfl
  | cons p yp2 =>
    rw [hyp2] at hcleanyp
    rw [renderSub_tokensOf, foldr_newline_njoin yp2 p]
    have hJhead : headNonWs (njoin ((p :: yp2).map fun q => q.2.data)) = true := by
      rw [List.map_cons]
      exact njoin_headNonWs (cleanTextB_spec (hcleanyp p (by simp))).1
    have hJlast : headNonWs (njoin ((p :: yp2).map fun q => q.2.data)).reverse = true := by
      apply njoin_lastNonWs _ (by simp)
      intro x hx
      obtain ⟨q, hq, rfl⟩ := List.mem_map.mp hx
      exact (cleanTextB_spec (hcleanyp q hq)).2.1
    show String.mk (pyStripL ('\n' :: njoin ((p :: yp2).map fun q => q.2.data))) = _
    rw [pyStripL_newline_njoin hJhead hJlast]
    unfold joinedByNewlines
    congr 1
    rw [← yieldedL_map_snd pdf.pages 1, hyp2, List.map_map]
    rfl

/-- Claim C3 witness. -/
theorem c3_remove_separators_witness :
    removeSeparators helloWorldText = joinedByNewlines (helloWorldDoc.pages.filterMap id) :=
  c3_remove_separators helloWorldDoc none helloWorldText [] (by decide) (by decide) rfl

/-- The whitespace-only single-page document used against claim C4. -/
def wsPageDoc : PdfDocument where
  is_encrypted := false
  decrypt := fun _ => false
  pages := [some " "]

/-- Claim C4 (corrected), counterexample: a one-page unencrypted document
whose page yields the whitespace text `" "` — a non-empty page text.
Extraction succeeds with the text stripped to `""`, which splits into zero
segments, yet exactly one page yielded non-empty text. -/
theorem c4_counterexample :
    extract_text_from_pdf (.valid wsPageDoc) none = .ok ("", [noTextWarning]) ∧
      countSegments "" = 0 ∧
      ((wsPageDoc.pages.filterMap id).filter fun t => !(t == "")).length = 1 := by
  refine ⟨by rfl, by decide, by decide⟩

theorem filter_clean_texts : ∀ yp : List (Nat × String),
    (∀ q ∈ yp, cleanTextB q.2 = true) →
    ((((yp.map fun q => q.2.data).map String.mk).filter fun t => !(t == "")).length = yp.length) := by
  intro yp
  induction yp with
  | nil => intro _; rfl
  | cons p yp ih =>
    intro h
    have hp := cleanTextB_spec (h p (by simp))
    have hne : p.2 ≠ "" := by
      intro h2
      have h3 := hp.1
      rw [h2] at h3
      simp [headNonWs] at h3
    have hcond : (!(String.mk p.2.data == "")) = true := by
      show (!(p.2 == "")) = true
      simp [hne]
    show ((String.mk p.2.data :: ((yp.map fun q => q.2.data).map String.mk)).filter
        fun t => !(t == "")).length = yp.length + 1
    rw [@List.filter_cons_of_pos String (fun t => !(t == "")) (String.mk p.2.data)
      ((yp.map fun q => q.2.data).map String.mk) hcond, List.length_cons,
      ih fun q hq => h q (by simp [hq])]

/-- Claim C4 (amended): for every unencrypted document with N ≥ 1 pages whose
yielded page texts are nonempty, free of leading/trailing whitespace and of
marker substrings, extraction succeeds and splitting the returned text on
separator headers yields exactly one nonempty segment per page that yielded
text, and at most N segments. -/
theorem c4_segment_count (pdf : PdfDocument) (pw : Option String)
    (henc : pdf.is_encrypted = false)
    (hlen : 1 ≤ pdf.pages.length)
    (hclean : ∀ t ∈ pdf.pages.filterMap id, cleanTextB t = true) :
    ∃ text warns, extract_text_from_pdf (.valid pdf) pw = .ok (text, warns) ∧
      countSegments text = (pdf.pages.filterMap id).length ∧
      countSegments text ≤ pdf.pages.length := by
  have hok : extract_text_from_pdf (.valid pdf) pw =
      .ok ((runPages pdf).1, (runPages pdf).2) := by
    simp [extract_text_from_pdf, henc]
  have hcount : countSegments (runPages pdf).1 = (pdf.pages.filterMap id).length := by
    rcases Nat.lt_or_ge 1 pdf.pages.length with hgt | hle
    · obtain ⟨htd, hscan⟩ := scan_extract_text pdf hgt hclean (runPages pdf).1 (runPages_fst pdf)
      have hcleanyp : ∀ q ∈ yieldedL 1 pdf.pages, cleanTextB q.2 = true := fun q hq =>
        hclean q.2 (yieldedL_snd_mem hq)
      have hcs : countSegments (runPages pdf).1 = (yieldedL 1 pdf.pages).length := by
        show (((splitTok (scanMarkers (runPages pdf).1.data)).map String.mk).filter
          fun t => !(t == "")).length = _
        rw [hscan, splitTok_tokensOf, List.map_cons,
          @List.filter_cons_of_neg String (fun t => !(t == "")) (String.mk [])
            (((yieldedL 1 pdf.pages).map fun q => q.2.data).map String.mk) (by decide),
          filter_clean_texts _ hcleanyp]
      rw [hcs, ← yieldedL_map_snd pdf.pages 1, List.length_map]
    · have h1 : pdf.pages.length = 1 := by omega
      obtain ⟨p, hpages⟩ : ∃ p, pdf.pages = [p] := by
        cases hp : pdf.pages with
        | nil => rw [hp] at h1; cases h1
        | cons a l =>
          cases l with
          | nil => exact ⟨a, rfl⟩
          | cons b l2 => rw [hp] at h1; simp at h1
      have htext := runPages_fst pdf
      rw [hpages] at htext
      cases p with
      | none =>
        have ht0 : (runPages pdf).1 = "" := by rw [htext]; rfl
        rw [ht0, hpages]
        decide
      | some t =>
        obtain ⟨hh, hl, hmf⟩ := cleanTextB_spec (hclean t (by rw [hpages]; simp))
        have htd : (runPages pdf).1.data = t.data := by
          rw [htext]
          show pyStripL (joinChunks (processPages
            ([some t] : List (Option String)).length 1 [some t]).1).data = t.data
          have e : (joinChunks (processPages
              ([some t] : List (Option String)).length 1 [some t]).1).data = t.data ++ [] := rfl
          rw [e, List.append_nil]
          exact pyStripL_eq_self hh hl
        have hscan : scanMarkers (runPages pdf).1.data = t.data.map some := by
          rw [htd]
          have hcopy : noMarkerAt t.data [] :=
            noMarkerAt_nil_of_markerFree (markerFreeL_spec hmf)
          have h2 := scanMarkers_append hcopy
          rw [List.append_nil, show scanMarkers ([] : List Char) = [] from rfl,
            List.append_nil] at h2
          exact h2
        have hsplit : splitTok (scanMarkers (runPages pdf).1.data) = [t.data] := by
          rw [hscan]
          have h0 : splitTok ([] : List (Option Char)) = [] :: [] := rfl
          have h3 := splitTok_map_some t.data h0
          rw [List.append_nil, List.append_nil] at h3
          exact h3
        have hne : t ≠ "" := by
          intro h2
          rw [h2] at hh
          simp [headNonWs] at hh
        have hcond : (!(String.mk t.data == "")) = true := by
          show (!(t == "")) = true
          simp [hne]
        show (((splitTok (scanMarkers (runPages pdf).1.data)).map String.mk).filter
          fun x => !(x == "")).length = (pdf.pages.filterMap id).length
        rw [hsplit, hpages]
        show (([String.mk t.data].filter fun x => !(x == "")).length) = 1
        rw [@List.filter_cons_of_pos String (fun x => !(x == "")) (String.mk t.data) [] hcond]
        rfl
  refine ⟨(runPages pdf).1, (runPages pdf).2, hok, hcount, ?_⟩
  rw [hcount]
  exact List.length_filterMap_le id pdf.pages

/-- Claim C4 witness. -/
theorem c4_segment_count_witness :
    ∃ text warns, extract_text_from_pdf (.valid helloWorldDoc) none = .ok (text, warns) ∧
      countSegments text = (helloWorldDoc.pages.filterMap id).length ∧
      countSegments text ≤ helloWorldDoc.pages.length :=
  c4_segment_count helloWorldDoc none rfl (by decide) (by decide)

/-- The single-page document whose page text looks like a separator header,
used against claim C7. -/
def markerPageDoc : PdfDocument where
  is_encrypted := false
  decrypt := fun _ => false
  pages := [some "--- Página 7 ---"]

/-- Claim C7 (corrected), counterexample: a single-page document whose page
text is itself `--- Página 7 ---`.  Extraction succeeds and returns that
text unchanged, so a page-separator header line is present in the returned
text of a one-page document. -/
theorem c7_counterexample :
    extract_text_from_pdf (.valid markerPageDoc) none = .ok ("--- Página 7 ---", []) ∧
      markerFreeL ("--- Página 7 ---" : String).data = false := by
  refine ⟨by rfl, by decide⟩

/-- Claim C7 (amended): for every single-page document whose yielded page text
contains no marker substring, the returned text contains no page-separator
header, and the caller-side separator removal applied when the toggle is
disabled leaves the text unchanged — so no header appears regardless of the
separator toggle. -/
theorem c7_single_page_no_header (pdf : PdfDocument) (pw : Option String)
    (text : String) (warns : List String)
    (hlen : pdf.pages.length = 1)
    (hmf : ∀ t ∈ pdf.pages.filterMap id, markerFreeL t.data = true)
    (hok : extract_text_from_pdf (.valid pdf) pw = .ok (text, warns)) :
    markerFreeL text.data = true ∧ removeSeparators text = text := by
  obtain ⟨p, hpages⟩ : ∃ p, pdf.pages = [p] := by
    cases hp : pdf.pages with
    | nil => rw [hp] at hlen; cases hlen
    | cons a l =>
      cases l with
      | nil => exact ⟨a, rfl⟩
      | cons b l2 => rw [hp] at hlen; simp at hlen
  have htext := extract_ok_text hok
  rw [hpages] at htext
  cases p with
  | none =>
    have ht0 : text = "" := by rw [htext]; rfl
    rw [ht0]
    refine ⟨by decide, by decide⟩
  | some t =>
    have htd : text.data = pyStripL t.data := by
      rw [htext]
      show pyStripL (joinChunks (processPages
        ([some t] : List (Option String)).length 1 [some t]).1).data = pyStripL t.data
      have e : (joinChunks (processPages
          ([some t] : List (Option String)).length 1 [some t]).1).data = t.data ++ [] := rfl
      rw [e, List.append_nil]
    have hmfs : ∀ s, s <:+ pyStripL t.data → markerCore s = none :=
      markerFree_pyStripL (markerFreeL_spec (hmf t (by rw [hpages]; simp)))
    constructor
    · apply markerFreeL_of_spec
      rw [htd]
      exact hmfs
    · have hcopy : noMarkerAt text.data [] := by
        rw [htd]
        exact noMarkerAt_nil_of_markerFree hmfs
      have hscan : scanMarkers text.data = text.data.map some := by
        have h2 := scanMarkers_append hcopy
        rw [List.append_nil, show scanMarkers ([] : List Char) = [] from rfl,
          List.append_nil] at h2
        exact h2
      unfold removeSeparators
      rw [hscan, renderSub_map_some]
      show String.mk (pyStripL text.data) = text
      rw [htd, pyStripL_idem]
      exact String.ext htd.symm

/-- Claim C7 witness. -/
theorem c7_single_page_no_header_witness :
    markerFreeL ("Hola" : String).data = true ∧ removeSeparators "Hola" = "Hola" :=
  c7_single_page_no_header ⟨false, fun _ => false, [some "Hola"]⟩ none "Hola" [] rfl
    (by decide) rfl
